import Mathlib

/-!
Verification development for the parallel quicksort repository
(`parallel_quicksort/sorter.hpp`, `parallel_quicksort/lfs_hazard.hpp` and the
unnamed sorter variant).  The C++ code is shallowly embedded:

* `bidirPartition` models the `std::partition` call of `sorter::do_sort`
  (the canonical swap-from-both-ends algorithm used by the major standard
  libraries for bidirectional iterators, as `std::list` iterators are);
* `do_sort` / `parallel_quick_sort` model the recursive sorting algorithm,
  whose sequential value semantics are: take the first element as pivot,
  partition the rest with `val < pivot`, and return
  sorted-lower ++ pivot :: sorted-higher;
* `do_sortSeq` / `waitSort` model the zero-extra-worker execution, with the
  explicit shared stack of pending chunks and the join-by-helping wait loop;
* `LFSState` with `pushSt` / `popE` / `sweep` models the hazard-pointer
  lock-free stack of `lfs_hazard.hpp` under single-thread (no interleaving)
  semantics, with explicit node addresses, the fixed hazard-slot table,
  the deferred-reclamation list and the set of physically freed addresses;
* `max_thread_count` models the `thread::hardware_concurrency() - 1`
  initializer of `sorter::sorter` in 32-bit unsigned arithmetic.
-/

/-- Find the last element of the list satisfying `p`, together with the
elements before it and after it.  This models the backwards scan
(`--last; while (!pred(*last)) --last;`) inside `std::partition`. -/
def findLastSplit (p : α → Bool) : List α → Option (List α × α × List α)
  | [] => none
  | x :: xs =>
    match findLastSplit p xs with
    | some (f, y, b) => some (x :: f, y, b)
    | none => if p x then some ([], x, xs) else none

theorem findLastSplit_none {p : α → Bool} :
    ∀ {xs : List α}, findLastSplit p xs = none → ∀ z ∈ xs, p z = false := by
  intro xs
  induction xs with
  | nil => intro _ z hz; cases hz
  | cons x xs ih =>
    intro h z hz
    simp only [findLastSplit] at h
    cases hfs : findLastSplit p xs with
    | some v => rw [hfs] at h; cases h
    | none =>
      rw [hfs] at h
      by_cases hp : p x
      · simp [hp] at h
      · rcases List.mem_cons.mp hz with hz | hz
        · subst hz; simpa using hp
        · exact ih hfs z hz

theorem findLastSplit_some {p : α → Bool} :
    ∀ {xs f : List α} {y : α} {b : List α}, findLastSplit p xs = some (f, y, b) →
      xs = f ++ y :: b ∧ p y = true ∧ ∀ z ∈ b, p z = false := by
  intro xs
  induction xs with
  | nil => intro f y b h; cases h
  | cons x xs ih =>
    intro f y b h
    simp only [findLastSplit] at h
    cases hfs : findLastSplit p xs with
    | some v =>
      obtain ⟨f', y', b'⟩ := v
      rw [hfs] at h
      simp only [Option.some.injEq, Prod.mk.injEq] at h
      obtain ⟨hf, hy, hb⟩ := h
      obtain ⟨hxs, hpy, hball⟩ := ih hfs
      subst hf hy hb
      exact ⟨by simp [hxs], hpy, hball⟩
    | none =>
      rw [hfs] at h
      by_cases hp : p x
      · simp only [hp, if_true, Option.some.injEq, Prod.mk.injEq] at h
        obtain ⟨hf, hy, hb⟩ := h
        subst hf hy hb
        exact ⟨rfl, hp, findLastSplit_none hfs⟩
      · simp [hp] at h

theorem findLastSplit_some_length {p : α → Bool} {xs f : List α} {y : α} {b : List α}
    (h : findLastSplit p xs = some (f, y, b)) : f.length < xs.length := by
  have := (findLastSplit_some h).1
  subst this
  simp

/-- Model of `std::partition(first, last, pred)` on a bidirectional range, as
called at line 61 of the unnamed sorter file (line 50 of `sorter.hpp`):
the swap-from-both-ends algorithm.  Returns the rearranged sequence together
with the offset of the returned iterator (the first element of the second
group). -/
def bidirPartition (p : α → Bool) : List α → List α × Nat
  | [] => ([], 0)
  | x :: xs =>
    if p x then
      let pr := bidirPartition p xs
      (x :: pr.1, pr.2 + 1)
    else
      match hfs : findLastSplit p xs with
      | none => (x :: xs, 0)
      | some (f, y, b) =>
        let pr := bidirPartition p f
        (y :: (pr.1 ++ x :: b), pr.2 + 1)
termination_by l => l.length
decreasing_by
  all_goals simp only [List.length_cons]
  · omega
  · have := findLastSplit_some_length hfs
    omega

theorem bidirPartition_nil (p : α → Bool) : bidirPartition p ([] : List α) = ([], 0) := by
  simp [bidirPartition]

theorem bidirPartition_pos {p : α → Bool} {x : α} (xs : List α) (hp : p x = true) :
    bidirPartition p (x :: xs) =
      ((bidirPartition p xs).1.cons x, (bidirPartition p xs).2 + 1) := by
  simp [bidirPartition, hp]

theorem bidirPartition_neg_none {p : α → Bool} {x : α} {xs : List α}
    (hp : p x = false) (hfs : findLastSplit p xs = none) :
    bidirPartition p (x :: xs) = (x :: xs, 0) := by
  simp only [bidirPartition, hp, Bool.false_eq_true, if_false]
  split
  · rfl
  · rename_i f y b heq
    rw [hfs] at heq
    cases heq

theorem bidirPartition_neg_some {p : α → Bool} {x : α} {xs f : List α} {y : α} {b : List α}
    (hp : p x = false) (hfs : findLastSplit p xs = some (f, y, b)) :
    bidirPartition p (x :: xs) =
      (y :: ((bidirPartition p f).1 ++ x :: b), (bidirPartition p f).2 + 1) := by
  simp only [bidirPartition, hp, Bool.false_eq_true, if_false]
  split
  · rename_i heq
    rw [hfs] at heq
    cases heq
  · rename_i f' y' b' heq
    rw [hfs] at heq
    cases heq
    rfl

/-- `std::partition` only rearranges the range: the output is a permutation
of the input. -/
theorem bidirPartition_perm (p : α → Bool) (l : List α) : (bidirPartition p l).1.Perm l := by
  induction l using bidirPartition.induct p with
  | case1 => simp [bidirPartition_nil]
  | case2 x xs hp ih =>
    rw [bidirPartition_pos xs (by simpa using hp)]
    exact ih.cons x
  | case3 x xs hp hfs =>
    rw [bidirPartition_neg_none (by simpa using hp) hfs]
  | case4 x xs hp f y b hfs ih =>
    rw [bidirPartition_neg_some (by simpa using hp) hfs]
    obtain ⟨hxs, hpy, hb⟩ := findLastSplit_some hfs
    subst hxs
    have h1 : ((bidirPartition p f).1 ++ x :: b).Perm (x :: (f ++ b)) :=
      List.perm_middle.trans ((ih.append_right b).cons x)
    have h3 : (y :: x :: (f ++ b)).Perm (x :: y :: (f ++ b)) := List.Perm.swap x y _
    have h4 : (x :: y :: (f ++ b)).Perm (x :: (f ++ y :: b)) :=
      (List.perm_middle.symm).cons x
    exact (h1.cons y).trans (h3.trans h4)

theorem bidirPartition_length (p : α → Bool) (l : List α) :
    (bidirPartition p l).1.length = l.length :=
  (bidirPartition_perm p l).length_eq

theorem bidirPartition_le (p : α → Bool) (l : List α) :
    (bidirPartition p l).2 ≤ (bidirPartition p l).1.length := by
  induction l using bidirPartition.induct p with
  | case1 => simp [bidirPartition_nil]
  | case2 x xs hp ih =>
    rw [bidirPartition_pos xs (by simpa using hp)]
    simpa using ih
  | case3 x xs hp hfs =>
    rw [bidirPartition_neg_none (by simpa using hp) hfs]
    simp
  | case4 x xs hp f y b hfs ih =>
    rw [bidirPartition_neg_some (by simpa using hp) hfs]
    simp only [List.length_cons, List.length_append]
    omega

/-- Every element of the first group produced by `std::partition` satisfies
the predicate. -/
theorem bidirPartition_take (p : α → Bool) (l : List α) :
    ∀ z ∈ (bidirPartition p l).1.take (bidirPartition p l).2, p z = true := by
  induction l using bidirPartition.induct p with
  | case1 => simp [bidirPartition_nil]
  | case2 x xs hp ih =>
    rw [bidirPartition_pos xs (by simpa using hp)]
    intro z hz
    simp only [List.take_succ_cons, List.mem_cons] at hz
    rcases hz with hz | hz
    · subst hz; simpa using hp
    · exact ih z hz
  | case3 x xs hp hfs =>
    rw [bidirPartition_neg_none (by simpa using hp) hfs]
    simp
  | case4 x xs hp f y b hfs ih =>
    rw [bidirPartition_neg_some (by simpa using hp) hfs]
    obtain ⟨hxs, hpy, hb⟩ := findLastSplit_some hfs
    intro z hz
    simp only [List.take_succ_cons, List.mem_cons] at hz
    rcases hz with hz | hz
    · subst hz; exact hpy
    · rw [List.take_append_of_le_length (bidirPartition_le p f)] at hz
      exact ih z hz

/-- Every element of the second group produced by `std::partition` fails
the predicate. -/
theorem bidirPartition_drop (p : α → Bool) (l : List α) :
    ∀ z ∈ (bidirPartition p l).1.drop (bidirPartition p l).2, p z = false := by
  induction l using bidirPartition.induct p with
  | case1 => simp [bidirPartition_nil]
  | case2 x xs hp ih =>
    rw [bidirPartition_pos xs (by simpa using hp)]
    intro z hz
    simp only [List.drop_succ_cons] at hz
    exact ih z hz
  | case3 x xs hp hfs =>
    rw [bidirPartition_neg_none (by simpa using hp) hfs]
    intro z hz
    simp only [List.drop_zero] at hz
    rcases List.mem_cons.mp hz with hz | hz
    · subst hz; simpa using hp
    · exact findLastSplit_none hfs z hz
  | case4 x xs hp f y b hfs ih =>
    rw [bidirPartition_neg_some (by simpa using hp) hfs]
    obtain ⟨hxs, hpy, hb⟩ := findLastSplit_some hfs
    intro z hz
    simp only [List.drop_succ_cons] at hz
    rw [List.drop_append_of_le_length (bidirPartition_le p f)] at hz
    rcases List.mem_append.mp hz with hz | hz
    · exact ih z hz
    · rcases List.mem_cons.mp hz with hz | hz
      · subst hz; simpa using hp
      · exact hb z hz

/-- Sequential value semantics of `sorter::do_sort` (line 52 of the unnamed
sorter file, line 41 of `sorter.hpp`): an empty chunk is returned unchanged;
otherwise the first element is spliced out as the pivot, the remainder is
rearranged by `std::partition` with predicate `val < pivot_val`, the group
before the partition point becomes the lower chunk and the group after it the
higher chunk, and the final splices produce
sorted-lower ++ pivot :: sorted-higher.  The concurrent offloading of the
lower chunk does not change the value computed (the chunk is sorted by the
same `do_sort` through `sort_chunk`, on whichever thread pops it); the
zero-worker execution is modelled separately by `do_sortSeq`. -/
def do_sort (lt : α → α → Bool) : List α → List α
  | [] => []
  | x :: xs =>
    let pr := bidirPartition (fun v => lt v x) xs
    do_sort lt (pr.1.take pr.2) ++ x :: do_sort lt (pr.1.drop pr.2)
termination_by l => l.length
decreasing_by
  all_goals simp only [List.length_cons, List.length_take, List.length_drop,
    bidirPartition_length]
  all_goals omega

/-- Model of the public entry point `parallel_quick_sort` (line 97 of the
unnamed sorter file, line 87 of `sorter.hpp`): empty input is returned as is,
otherwise a sorter is created and `do_sort` runs on the input. -/
def parallel_quick_sort (lt : α → α → Bool) (input : List α) : List α :=
  if input.isEmpty then input else do_sort lt input

theorem do_sort_nil (lt : α → α → Bool) : do_sort lt ([] : List α) = [] := by
  simp [do_sort]

theorem do_sort_cons (lt : α → α → Bool) (x : α) (xs : List α) :
    do_sort lt (x :: xs) =
      do_sort lt ((bidirPartition (fun v => lt v x) xs).1.take
          (bidirPartition (fun v => lt v x) xs).2)
        ++ x :: do_sort lt ((bidirPartition (fun v => lt v x) xs).1.drop
          (bidirPartition (fun v => lt v x) xs).2) := by
  rw [do_sort]

/-- `do_sort` preserves the multiset of elements. -/
theorem do_sort_multiset (lt : α → α → Bool) :
    ∀ n (l : List α), l.length ≤ n → ((do_sort lt l : List α) : Multiset α) = (l : Multiset α) := by
  intro n
  induction n with
  | zero =>
    intro l hl
    have : l = [] := List.eq_nil_of_length_eq_zero (Nat.le_zero.mp hl)
    subst this
    simp [do_sort_nil]
  | succ m ih =>
    intro l hl
    cases l with
    | nil => simp [do_sort_nil]
    | cons x xs =>
      rw [do_sort_cons]
      have hlen := bidirPartition_length (fun v => lt v x) xs
      have hxs : xs.length ≤ m := by
        simpa using Nat.lt_succ_iff.mp (Nat.lt_of_lt_of_le (by simp) hl)
      have htk : ((bidirPartition (fun v => lt v x) xs).1.take
          (bidirPartition (fun v => lt v x) xs).2).length ≤ m := by
        simp only [List.length_take]
        omega
      have hdr : ((bidirPartition (fun v => lt v x) xs).1.drop
          (bidirPartition (fun v => lt v x) xs).2).length ≤ m := by
        simp only [List.length_drop]
        omega
      apply Multiset.coe_eq_coe.mpr
      have hA := Multiset.coe_eq_coe.mp (ih _ htk)
      have hB := Multiset.coe_eq_coe.mp (ih _ hdr)
      refine List.perm_middle.trans (List.Perm.cons x ?_)
      refine (hA.append hB).trans ?_
      rw [List.take_append_drop]
      exact bidirPartition_perm _ xs

theorem do_sort_mem (lt : α → α → Bool) (l : List α) (a : α) :
    a ∈ do_sort lt l ↔ a ∈ l := by
  have h := do_sort_multiset lt l.length l (Nat.le_refl _)
  constructor
  · intro ha
    have : a ∈ ((do_sort lt l : List α) : Multiset α) := by simpa using ha
    rw [h] at this
    simpa using this
  · intro ha
    have : a ∈ ((l : List α) : Multiset α) := by simpa using ha
    rw [← h] at this
    simpa using this

/-- `do_sort` output is pairwise non-descending: for a transitive and
asymmetric order predicate, no later element is below an earlier one. -/
theorem do_sort_pairwise (lt : α → α → Bool)
    (htrans : ∀ a b c, lt a b = true → lt b c = true → lt a c = true)
    (hasymm : ∀ a b, lt a b = true → lt b a = false) :
    ∀ n (l : List α), l.length ≤ n →
      (do_sort lt l).Pairwise (fun a b => lt b a = false) := by
  intro n
  induction n with
  | zero =>
    intro l hl
    have : l = [] := List.eq_nil_of_length_eq_zero (Nat.le_zero.mp hl)
    subst this
    simp [do_sort_nil]
  | succ m ih =>
    intro l hl
    cases l with
    | nil => simp [do_sort_nil]
    | cons x xs =>
      rw [do_sort_cons]
      have hlen := bidirPartition_length (fun v => lt v x) xs
      have hxs : xs.length ≤ m := by simpa using hl
      have htk : ((bidirPartition (fun v => lt v x) xs).1.take
          (bidirPartition (fun v => lt v x) xs).2).length ≤ m := by
        simp only [List.length_take]; omega
      have hdr : ((bidirPartition (fun v => lt v x) xs).1.drop
          (bidirPartition (fun v => lt v x) xs).2).length ≤ m := by
        simp only [List.length_drop]; omega
      have hlow : ∀ z ∈ do_sort lt ((bidirPartition (fun v => lt v x) xs).1.take
          (bidirPartition (fun v => lt v x) xs).2), lt z x = true := by
        intro z hz
        exact bidirPartition_take (fun v => lt v x) xs z ((do_sort_mem lt _ z).mp hz)
      have hhigh : ∀ z ∈ do_sort lt ((bidirPartition (fun v => lt v x) xs).1.drop
          (bidirPartition (fun v => lt v x) xs).2), lt z x = false := by
        intro z hz
        exact bidirPartition_drop (fun v => lt v x) xs z ((do_sort_mem lt _ z).mp hz)
      rw [List.pairwise_append]
      refine ⟨ih _ htk, ?_, ?_⟩
      · rw [List.pairwise_cons]
        exact ⟨fun b hb => hhigh b hb, ih _ hdr⟩
      · intro a ha b hb
        rcases List.mem_cons.mp hb with hb | hb
        · subst hb
          exact hasymm a b (hlow a ha)
        · by_contra hba
          have hba' : lt b a = true := by
            cases hba'' : lt b a
            · exact absurd hba'' hba
            · rfl
          have : lt b x = true := htrans b a x hba' (hlow a ha)
          rw [hhigh b hb] at this
          cases this

/-- C1: for every input sequence and every order predicate, the multiset of
elements returned by `sort` (`parallel_quick_sort` / `do_sort`) equals the
multiset of elements of the input: same elements, same multiplicities. -/
theorem sort_preserves_multiset (lt : α → α → Bool) (l : List α) :
    ((parallel_quick_sort lt l : List α) : Multiset α) = (l : Multiset α) := by
  unfold parallel_quick_sort
  split
  · rfl
  · exact do_sort_multiset lt l.length l (Nat.le_refl _)

/-- C2: for every input sequence and every total-order predicate `less_than`
(transitive and asymmetric, as a strict order is), the sequence returned by
`sort` is non-descending: for every adjacent pair (a, b) of the output,
`less_than b a` is false. -/
theorem sort_output_nondescending (lt : α → α → Bool)
    (htrans : ∀ a b c, lt a b = true → lt b c = true → lt a c = true)
    (hasymm : ∀ a b, lt a b = true → lt b a = false) (l : List α) :
    (parallel_quick_sort lt l).Chain' (fun a b => lt b a = false) := by
  unfold parallel_quick_sort
  split
  · rename_i h
    rw [List.isEmpty_iff] at h
    subst h
    simp
  · exact (do_sort_pairwise lt htrans hasymm l.length l (Nat.le_refl _)).chain'

/-- Witness for C2 at the spec's concrete scenario input. -/
theorem sort_output_nondescending_witness :
    (parallel_quick_sort (fun a b : Nat => decide (a < b)) [5, 3, 8, 1, 9, 2]).Chain'
      (fun a b => decide (b < a) = false) :=
  sort_output_nondescending (fun a b : Nat => decide (a < b))
    (fun a b c hab hbc => by simp only [decide_eq_true_eq] at *; omega)
    (fun a b hab => by simp only [decide_eq_true_eq, decide_eq_false_iff_not] at *; omega)
    [5, 3, 8, 1, 9, 2]

/-- C3 counterexample: the partition step is NOT stable.  On the `do_sort`
input `[2, 5, 0, 6, 1]` the pivot is 2 and the remainder `[5, 0, 6, 1]` is
rearranged by `std::partition` (pred `v < 2`) to `[1, 0, 6, 5]` with partition
point 2: the less-than-pivot group comes out as `[1, 0]`, but those elements
appear in the order `[0, 1]` in the input, so relative order within the group
is not preserved. -/
theorem partition_not_stable_cex :
    bidirPartition (fun v => decide (v < 2)) [5, 0, 6, 1] = ([1, 0, 6, 5], 2) ∧
    List.filter (fun v => decide (v < 2)) [5, 0, 6, 1] = [0, 1] ∧
    (bidirPartition (fun v => decide (v < 2)) [5, 0, 6, 1]).1.take
      (bidirPartition (fun v => decide (v < 2)) [5, 0, 6, 1]).2 ≠ [0, 1] := by
  have h6 : bidirPartition (fun v => decide (v < 2)) [6] = ([6], 0) :=
    bidirPartition_neg_none (by decide) (by decide)
  have h06 : bidirPartition (fun v => decide (v < 2)) [0, 6] = ([0, 6], 1) := by
    rw [bidirPartition_pos [6] (by decide), h6]
  have h : bidirPartition (fun v => decide (v < 2)) [5, 0, 6, 1] = ([1, 0, 6, 5], 2) := by
    rw [bidirPartition_neg_some (by decide)
      (show findLastSplit (fun v => decide (v < 2)) [0, 6, 1] = some ([0, 6], 1, []) by decide),
      h06]
    decide
  refine ⟨h, by decide, ?_⟩
  rw [h]
  decide

/-- C3 amended: in every partition step of `do_sort`, the remainder (after
removing the pivot) is partitioned — not necessarily stably — into a
less-than-pivot group and a not-less-than-pivot group: the rearranged
sequence splits at the partition point into the two groups, together the
groups hold exactly the elements of the remainder (same multiset), every
element of the first group is below the pivot and every element of the
second group is not (in particular every element equal to the pivot lands in
the not-less group); relative order within a group is not preserved in
general, `std::partition` being unstable. -/
theorem partition_groups (lt : α → α → Bool) (piv : α) (xs : List α) :
    (bidirPartition (fun v => lt v piv) xs).1.take (bidirPartition (fun v => lt v piv) xs).2 ++
        (bidirPartition (fun v => lt v piv) xs).1.drop
          (bidirPartition (fun v => lt v piv) xs).2 =
      (bidirPartition (fun v => lt v piv) xs).1 ∧
    ((bidirPartition (fun v => lt v piv) xs).1 : Multiset α) = (xs : Multiset α) ∧
    (∀ z ∈ (bidirPartition (fun v => lt v piv) xs).1.take
      (bidirPartition (fun v => lt v piv) xs).2, lt z piv = true) ∧
    (∀ z ∈ (bidirPartition (fun v => lt v piv) xs).1.drop
      (bidirPartition (fun v => lt v piv) xs).2, lt z piv = false) :=
  ⟨List.take_append_drop _ _, Multiset.coe_eq_coe.mpr (bidirPartition_perm _ xs),
    bidirPartition_take _ xs, bidirPartition_drop _ xs⟩

/-- C9: on a non-empty sequence `do_sort` always selects the first element as
the pivot, and the output is exactly sorted-lower ++ pivot :: sorted-higher
with that first element in the pivot position. -/
theorem do_sort_first_element_pivot (lt : α → α → Bool) (x : α) (xs : List α) :
    do_sort lt (x :: xs) =
      do_sort lt ((bidirPartition (fun v => lt v x) xs).1.take
          (bidirPartition (fun v => lt v x) xs).2)
        ++ x :: do_sort lt ((bidirPartition (fun v => lt v x) xs).1.drop
          (bidirPartition (fun v => lt v x) xs).2) := by
  rw [do_sort]

/-- Model of the `max_thread_count(thread::hardware_concurrency() - 1)`
initializer of `sorter::sorter` (line 86 of the unnamed sorter file, line 75
of `sorter.hpp`): `hardware_concurrency()` returns `unsigned` (a value below
2^32) and the subtraction is 32-bit unsigned arithmetic, so the stored count
is `(hc - 1) mod 2^32`. -/
def max_thread_count (hardware_concurrency : Nat) : Nat :=
  (hardware_concurrency + (2 ^ 32 - 1)) % 2 ^ 32

/-- C7 counterexample: when `hardware_concurrency()` reports 1, the default
maximum worker-thread count is 0, not at least one — the constructor applies
no minimum-one clamp. -/
theorem max_thread_count_one_cex :
    max_thread_count 1 = 0 ∧ ¬ 1 ≤ max_thread_count 1 := by
  constructor
  · rfl
  · intro h
    have : max_thread_count 1 = 0 := rfl
    omega

/-- C7 amended: the default maximum worker-thread count equals
(hardware parallelism − 1) mod 2^32: for any parallelism value ≥ 1 it is
parallelism − 1 (in particular 0 — not 1 — when parallelism is 1), and when
parallelism reports 0 the unsigned subtraction wraps to 2^32 − 1.  There is
no minimum-one clamp. -/
theorem max_thread_count_unsigned_wrap :
    (∀ hc : Nat, 1 ≤ hc → hc < 2 ^ 32 → max_thread_count hc = hc - 1) ∧
      max_thread_count 0 = 2 ^ 32 - 1 ∧ max_thread_count 1 = 0 := by
  refine ⟨?_, by rfl, by rfl⟩
  intro hc h1 h2
  unfold max_thread_count
  have h32 : (2 : Nat) ^ 32 = 4294967296 := by norm_num
  rw [h32] at h2 ⊢
  omega

/-- Witness for C7's amended claim at hardware parallelism 5. -/
theorem max_thread_count_unsigned_wrap_witness : max_thread_count 5 = 4 :=
  max_thread_count_unsigned_wrap.1 5 (by norm_num) (by norm_num)

/-! ## Hazard-pointer lock-free stack (`lfs_hazard.hpp`), single-thread model

Nodes live in an explicit heap keyed by address; `none` plays the role of
`nullptr`.  A hazard slot is a pair of atomics `(id, pointer)`; `id = none`
models the default `thread::id()` (slot unowned) and `pointer = none` models
a null protected address.  The model executes one thread's operations with no
concurrent interference, so every CAS succeeds on its first attempt and the
protect-and-recheck loop of `pop` runs exactly one iteration. -/

/-- `max_hazard_pointers` of `lfs_hazard.hpp` (line 35). -/
def max_hazard_pointers : Nat := 100

/-- One entry of the `hazard_pointers` table: the owning thread's id and the
currently protected node address (line 37). -/
structure HazardSlot where
  id : Option Nat
  pointer : Option Nat
deriving Repr, DecidableEq

/-- State of the stack, the hazard table and the reclamation machinery, for
one thread running with no concurrent interference.  `heap` maps a node
address to the node's payload and `next` link; `freed` records the addresses
physically freed so far (`delete`d nodes); `reclaim` is the
`nodes_to_reclaim` deferred-reclamation list (addresses, most recent first);
`threadSlot` is the slot index held by the running thread's `thread_local
hp_owner`, `none` before its first use. -/
structure LFSState (α : Type) where
  heap : List (Nat × α × Option Nat)
  head : Option Nat
  nextAddr : Nat
  slots : List HazardSlot
  reclaim : List Nat
  freed : List Nat
  threadSlot : Option Nat
deriving Repr

/-- The error of `throw std::runtime_error("No hazard pointers available")`
in the `hp_owner` constructor (line 63 of `lfs_hazard.hpp`). -/
inductive StackError where
  | resourceExhausted
deriving Repr, DecidableEq

/-- The scan-and-claim loop of the `hp_owner` constructor (lines 52–61 of
`lfs_hazard.hpp`): find the first slot whose owner id is unset and claim it
by installing this thread's id; `none` when every slot is owned. -/
def acquireSlot (tid : Nat) : List HazardSlot → Option (Nat × List HazardSlot)
  | [] => none
  | s :: rest =>
    if s.id = none then some (0, { s with id := some tid } :: rest)
    else
      match acquireSlot tid rest with
      | some (i, rest') => some (i + 1, s :: rest')
      | none => none

/-- `get_hazard_pointer_for_current_thread` (lines 77–80 of
`lfs_hazard.hpp`): the `thread_local hp_owner` is constructed on first use,
acquiring a slot or throwing; afterwards the already-held slot is returned.
The running thread's id is modelled as 0. -/
def getHazardSlot (st : LFSState α) : Except StackError (Nat × LFSState α) :=
  match st.threadSlot with
  | some i => .ok (i, st)
  | none =>
    match acquireSlot 0 st.slots with
    | some (i, slots') => .ok (i, { st with slots := slots', threadSlot := some i })
    | none => .error .resourceExhausted

/-- Store `p` into the `pointer` field of slot `i`. -/
def setPointer : List HazardSlot → Nat → Option Nat → List HazardSlot
  | [], _, _ => []
  | s :: rest, 0, p => { s with pointer := p } :: rest
  | s :: rest, i + 1, p => s :: setPointer rest i p

/-- `outstanding_hazard_pointers_for(p)` (lines 82–89 of `lfs_hazard.hpp`):
scan every slot's protected address for `p`. -/
def outstanding_hazard_pointers_for (p : Nat) (slots : List HazardSlot) : Bool :=
  slots.any (fun s => s.pointer = some p)

/-- The loop body of `delete_nodes_with_no_hazards` (lines 125–137 of
`lfs_hazard.hpp`) after `nodes_to_reclaim.exchange(nullptr)`: walk the old
list; an entry with no outstanding hazard pointer is deleted (its node is
freed), any other entry is pushed back onto the (fresh) reclamation list. -/
def sweepGo : List Nat → LFSState α → LFSState α
  | [], st => st
  | a :: rest, st =>
    if outstanding_hazard_pointers_for a st.slots then
      sweepGo rest { st with reclaim := a :: st.reclaim }
    else
      sweepGo rest { st with heap := st.heap.filter (fun e => decide (e.1 ≠ a)),
                             freed := a :: st.freed }

/-- `delete_nodes_with_no_hazards`: exchange the reclamation list for the
empty one, then sweep the entries just taken. -/
def sweep (st : LFSState α) : LFSState α :=
  sweepGo st.reclaim { st with reclaim := [] }

/-- `lock_free_stack::push` (lines 139–151 of `lfs_hazard.hpp`): allocate a
node holding the value, link it ahead of the current head; the CAS succeeds
at once with no interference.  No hazard slot is consulted or acquired. -/
def pushSt (st : LFSState α) (v : α) : LFSState α :=
  { st with heap := (st.nextAddr, v, st.head) :: st.heap,
            head := some st.nextAddr,
            nextAddr := st.nextAddr + 1 }

/-- `lock_free_stack::pop` (lines 153–180 of `lfs_hazard.hpp`) for one thread
with no interference: obtain the thread's hazard slot (possibly constructing
the `thread_local hp_owner`, which can throw), publish the observed head in
it (the re-check loop passes at once since nothing moved the head), then —
for a null head — clear the slot and report empty, or else advance the head
by CAS, clear the slot, take the payload, delete the node immediately if no
slot still protects its address and defer it otherwise, and finally run one
sweep of the deferred-reclamation list. -/
def popE (st : LFSState α) : Except StackError (Option α × LFSState α) := do
  let (i, st1) ← getHazardSlot st
  let oldHead := st1.head
  let st2 := { st1 with slots := setPointer st1.slots i oldHead }
  match oldHead with
  | none =>
    .ok (none, { st2 with slots := setPointer st2.slots i none })
  | some a =>
    match List.lookup a st2.heap with
    | none =>
      -- a dangling head: unreachable from any state the operations produce
      .ok (none, st2)
    | some (v, nx) =>
      let st3 := { st2 with head := nx, slots := setPointer st2.slots i none }
      let st4 :=
        if outstanding_hazard_pointers_for a st3.slots then
          { st3 with reclaim := a :: st3.reclaim }
        else
          { st3 with heap := st3.heap.filter (fun e => decide (e.1 ≠ a)),
                     freed := a :: st3.freed }
      .ok (some v, sweep st4)

/-- The empty initial state: no nodes, null head, the process-wide table of
`max_hazard_pointers` unowned slots, nothing deferred, nothing freed, and the
running thread not yet registered. -/
def initState (α : Type) : LFSState α :=
  ⟨[], none, 0, List.replicate max_hazard_pointers ⟨none, none⟩, [], [], none⟩

theorem outstanding_replicate_none (p m : Nat) :
    outstanding_hazard_pointers_for p (List.replicate m ⟨none, none⟩) = false := by
  induction m with
  | zero => rfl
  | succ k ih =>
    rw [List.replicate_succ]
    simp only [outstanding_hazard_pointers_for, List.any_cons] at ih ⊢
    simp only [ih, Bool.or_false]
    rfl

/-- One successful `pop` by the registered thread (slot 0 held, nothing else
protected, nothing pending reclamation): the head node's value is returned,
its node is freed at once, and the hazard slot ends up cleared. -/
theorem popE_step (h : List (Nat × α × Option Nat)) (a na : Nat) (v : α) (nx : Option Nat)
    (m : Nat) (fr : List Nat) (hlk : List.lookup a h = some (v, nx)) :
    popE ⟨h, some a, na, ⟨some 0, none⟩ :: List.replicate m ⟨none, none⟩, [], fr, some 0⟩ =
      .ok (some v, ⟨h.filter (fun e => decide (e.1 ≠ a)), nx, na,
        ⟨some 0, none⟩ :: List.replicate m ⟨none, none⟩, [], a :: fr, some 0⟩) := by
  simp [popE, getHazardSlot, setPointer, hlk, sweep, sweepGo, Bind.bind, Except.bind,
    outstanding_hazard_pointers_for, outstanding_replicate_none,
    List.any_eq_true, List.mem_replicate]

/-- Like `popE_step` but for the thread's very first `pop`: the hazard slot
is acquired first (slot 0, the table being otherwise untouched). -/
theorem popE_first_step (h : List (Nat × α × Option Nat)) (a na : Nat) (v : α)
    (nx : Option Nat) (m : Nat) (fr : List Nat) (hlk : List.lookup a h = some (v, nx)) :
    popE ⟨h, some a, na, ⟨none, none⟩ :: List.replicate m ⟨none, none⟩, [], fr, none⟩ =
      .ok (some v, ⟨h.filter (fun e => decide (e.1 ≠ a)), nx, na,
        ⟨some 0, none⟩ :: List.replicate m ⟨none, none⟩, [], a :: fr, some 0⟩) := by
  simp [popE, getHazardSlot, acquireSlot, setPointer, hlk, sweep, sweepGo,
    Bind.bind, Except.bind, outstanding_hazard_pointers_for, outstanding_replicate_none,
    List.any_eq_true, List.mem_replicate]

/-- `pop` on the empty stack by the registered thread: the empty result, no
state change. -/
theorem popE_empty_step (h : List (Nat × α × Option Nat)) (na : Nat)
    (m : Nat) (fr : List Nat) :
    popE ⟨h, none, na, ⟨some 0, none⟩ :: List.replicate m ⟨none, none⟩, [], fr, some 0⟩ =
      .ok (none, ⟨h, none, na,
        ⟨some 0, none⟩ :: List.replicate m ⟨none, none⟩, [], fr, some 0⟩) := by
  simp [popE, getHazardSlot, setPointer, Bind.bind, Except.bind]

/-- C8: with a single thread and no concurrent access, pushing p1, p2, p3
onto the lock-free stack and popping three times returns p3, then p2, then
p1 (LIFO order), and a fourth pop reports empty (the non-error empty
result). -/
theorem stack_lifo_single_thread (p1 p2 p3 : α) :
    ∃ s1 s2 s3 s4,
      popE (pushSt (pushSt (pushSt (initState α) p1) p2) p3) = .ok (some p3, s1) ∧
      popE s1 = .ok (some p2, s2) ∧
      popE s2 = .ok (some p1, s3) ∧
      popE s3 = .ok (none, s4) := by
  exact ⟨_, _, _, _,
    popE_first_step _ 2 3 p3 (some 1) 99 [] rfl,
    popE_step _ 1 3 p2 (some 0) 99 [2] rfl,
    popE_step _ 0 3 p1 none 99 [1, 2] rfl,
    popE_empty_step _ 3 99 [0, 1, 2]⟩

theorem acquireSlot_none_of_full (tid : Nat) :
    ∀ slots : List HazardSlot, (∀ s ∈ slots, s.id.isSome) → acquireSlot tid slots = none := by
  intro slots
  induction slots with
  | nil => intro _; rfl
  | cons s rest ih =>
    intro hfull
    have hs : s.id.isSome := hfull s (List.mem_cons_self s rest)
    have hid : ¬ s.id = none := by
      cases h : s.id
      · rw [h] at hs; cases hs
      · intro hc; cases hc
    simp only [acquireSlot, if_neg hid, ih (fun t ht => hfull t (List.mem_cons_of_mem s ht))]

/-- C10: `pop` obtains the calling thread's hazard slot before it examines
the stack head.  A thread that holds no slot yet, facing a fully owned
hazard table, gets `ResourceExhausted` from `pop` even on an empty stack;
a thread whose slot is already acquired gets the normal empty result from
`pop` on an empty stack. -/
theorem pop_acquires_slot_before_head (st : LFSState α) :
    (st.threadSlot = none → (∀ s ∈ st.slots, s.id.isSome) →
      popE st = .error .resourceExhausted) ∧
    (st.head = none → ∀ i, st.threadSlot = some i →
      ∃ st', popE st = .ok (none, st')) := by
  constructor
  · intro hts hfull
    simp [popE, getHazardSlot, hts, acquireSlot_none_of_full 0 st.slots hfull,
      Bind.bind, Except.bind]
  · intro hhd i hts
    refine ⟨{ st with slots := setPointer (setPointer st.slots i none) i none }, ?_⟩
    simp [popE, getHazardSlot, hts, hhd, Bind.bind, Except.bind]

/-- A hazard table with every slot owned (by other threads), and the running
thread not yet registered, stack empty. -/
def exhaustedState (α : Type) : LFSState α :=
  ⟨[], none, 0, List.replicate max_hazard_pointers ⟨some 1, none⟩, [], [], none⟩

/-- Witness for C10: on the concrete exhausted 100-slot table the first pop
errors out even though the stack is empty, while a thread already holding
slot 0 gets the empty result. -/
theorem pop_acquires_slot_before_head_witness :
    popE (exhaustedState Nat) = .error .resourceExhausted ∧
    ∃ st', popE ⟨[], none, 0, ⟨some 0, none⟩ :: List.replicate 99 ⟨none, none⟩,
      [], [], some 0⟩ = .ok ((none : Option Nat), st') :=
  ⟨(pop_acquires_slot_before_head (exhaustedState Nat)).1 rfl (by decide),
   (pop_acquires_slot_before_head _).2 rfl 0 rfl⟩

/-- C5 counterexample: a thread's first stack operation need not fail when
the hazard-pointer table is exhausted.  `push` never calls
`get_hazard_pointer_for_current_thread`, so on a state whose every slot is
owned by other threads a slotless thread's first operation, when it is a
push, completes normally — it acquires no slot (table and `threadSlot`
unchanged) and its type offers no error outcome at all, contradicting the
claim that the first stack operation fails with `ResourceExhausted`.  Only
the first `pop` fails. -/
theorem first_push_no_acquisition_cex :
    pushSt (exhaustedState Nat) 7 =
      ⟨[(0, 7, none)], some 0, 1,
        List.replicate max_hazard_pointers ⟨some 1, none⟩, [], [], none⟩ ∧
    (pushSt (exhaustedState Nat) 7).slots = (exhaustedState Nat).slots ∧
    (pushSt (exhaustedState Nat) 7).threadSlot = none :=
  ⟨rfl, rfl, rfl⟩

/-- C5 amended: when a thread performs its first `pop` while the
hazard-pointer table has no free slot, slot acquisition fails and `pop`
raises `ResourceExhausted` to its caller instead of popping or reclaiming
anything (in the sorter nothing catches it on the way to the top-level
caller of the sort); a first `push`, by contrast, performs no slot
acquisition, leaves the table untouched and cannot fail this way. -/
theorem pop_exhausted_resource_error (st : LFSState α) (v : α)
    (hts : st.threadSlot = none) (hfull : ∀ s ∈ st.slots, s.id.isSome) :
    popE st = .error .resourceExhausted ∧
    (pushSt st v).slots = st.slots ∧
    (pushSt st v).threadSlot = st.threadSlot ∧
    (pushSt st v).freed = st.freed := by
  refine ⟨?_, rfl, rfl, rfl⟩
  simp [popE, getHazardSlot, hts, acquireSlot_none_of_full 0 st.slots hfull,
    Bind.bind, Except.bind]

/-- Witness for C5's amended claim on the concrete fully-owned 100-slot
table. -/
theorem pop_exhausted_resource_error_witness :
    popE (exhaustedState Nat) = .error .resourceExhausted ∧
    (pushSt (exhaustedState Nat) 5).slots = (exhaustedState Nat).slots ∧
    (pushSt (exhaustedState Nat) 5).threadSlot = (exhaustedState Nat).threadSlot ∧
    (pushSt (exhaustedState Nat) 5).freed = (exhaustedState Nat).freed :=
  pop_exhausted_resource_error (exhaustedState Nat) 5 rfl (by decide)

/-- What one sweep of the taken reclamation entries does: slots untouched;
an entry joins the freed set exactly when it was taken and no hazard slot
references it; an entry is re-queued exactly when some hazard slot still
references it. -/
theorem sweepGo_spec (L : List Nat) :
    ∀ st : LFSState α,
      (sweepGo L st).slots = st.slots ∧
      (∀ q, q ∈ (sweepGo L st).freed ↔
        q ∈ st.freed ∨ (q ∈ L ∧ outstanding_hazard_pointers_for q st.slots = false)) ∧
      (∀ q, q ∈ (sweepGo L st).reclaim ↔
        q ∈ st.reclaim ∨ (q ∈ L ∧ outstanding_hazard_pointers_for q st.slots = true)) := by
  induction L with
  | nil =>
    intro st
    refine ⟨rfl, ?_, ?_⟩ <;> simp [sweepGo]
  | cons a rest ih =>
    intro st
    cases hout : outstanding_hazard_pointers_for a st.slots with
    | true =>
      have hred : sweepGo (a :: rest) st = sweepGo rest { st with reclaim := a :: st.reclaim } := by
        simp [sweepGo, hout]
      obtain ⟨hs, hf, hr⟩ := ih { st with reclaim := a :: st.reclaim }
      rw [hred]
      refine ⟨hs, ?_, ?_⟩
      · intro q
        rw [hf q]
        simp only [List.mem_cons]
        constructor
        · rintro (hq | ⟨hq, ho⟩)
          · exact Or.inl hq
          · exact Or.inr ⟨Or.inr hq, ho⟩
        · rintro (hq | ⟨hq | hq, ho⟩)
          · exact Or.inl hq
          · subst hq; rw [hout] at ho; cases ho
          · exact Or.inr ⟨hq, ho⟩
      · intro q
        rw [hr q]
        simp only [List.mem_cons]
        constructor
        · rintro (⟨hq | hq⟩ | ⟨hq, ho⟩)
          · subst hq; exact Or.inr ⟨Or.inl rfl, hout⟩
          · exact Or.inl hq
          · exact Or.inr ⟨Or.inr hq, ho⟩
        · rintro (hq | ⟨hq | hq, ho⟩)
          · exact Or.inl (Or.inr hq)
          · subst hq; exact Or.inl (Or.inl rfl)
          · exact Or.inr ⟨hq, ho⟩
    | false =>
      have hred : sweepGo (a :: rest) st =
          sweepGo rest { st with heap := st.heap.filter (fun e => decide (e.1 ≠ a)),
                                 freed := a :: st.freed } := by
        simp [sweepGo, hout]
      obtain ⟨hs, hf, hr⟩ := ih { st with heap := st.heap.filter (fun e => decide (e.1 ≠ a)),
                                          freed := a :: st.freed }
      rw [hred]
      refine ⟨hs, ?_, ?_⟩
      · intro q
        rw [hf q]
        simp only [List.mem_cons]
        constructor
        · rintro (⟨hq | hq⟩ | ⟨hq, ho⟩)
          · subst hq; exact Or.inr ⟨Or.inl rfl, hout⟩
          · exact Or.inl hq
          · exact Or.inr ⟨Or.inr hq, ho⟩
        · rintro (hq | ⟨hq | hq, ho⟩)
          · exact Or.inl (Or.inr hq)
          · subst hq; exact Or.inl (Or.inl rfl)
          · exact Or.inr ⟨hq, ho⟩
      · intro q
        rw [hr q]
        simp only [List.mem_cons]
        constructor
        · rintro (hq | ⟨hq, ho⟩)
          · exact Or.inl hq
          · exact Or.inr ⟨Or.inr hq, ho⟩
        · rintro (hq | ⟨hq | hq, ho⟩)
          · exact Or.inl hq
          · subst hq; rw [hout] at ho; cases ho
          · exact Or.inr ⟨hq, ho⟩

/-- C6: a popped node is physically freed only while no hazard slot holds
its address.  After a successful `pop` of the node at address `a` (the
thread holding slot `i`, whose own protection is cleared again by the end of
the call), the state satisfies: an address is freed by the call exactly when
it is the popped node or a deferred entry and no hazard slot references it;
an address stays on the deferred-reclamation list exactly when it is the
popped node or a deferred entry and some hazard slot still references it
(the popped node being deferred rather than deleted when
`outstanding_hazard_pointers_for` holds, and the sweep re-queuing every
still-referenced entry). -/
theorem pop_frees_only_unprotected (st : LFSState α) (i a : Nat) (v : α) (nx : Option Nat)
    (hts : st.threadSlot = some i) (hhd : st.head = some a)
    (hlk : List.lookup a st.heap = some (v, nx)) :
    ∃ st', popE st = .ok (some v, st') ∧
      (∀ q, q ∈ st'.freed ↔ q ∈ st.freed ∨
        ((q = a ∨ q ∈ st.reclaim) ∧ outstanding_hazard_pointers_for q
          (setPointer (setPointer st.slots i (some a)) i none) = false)) ∧
      (∀ q, q ∈ st'.reclaim ↔ (q = a ∨ q ∈ st.reclaim) ∧
        outstanding_hazard_pointers_for q
          (setPointer (setPointer st.slots i (some a)) i none) = true) := by
  cases hout : outstanding_hazard_pointers_for a
      (setPointer (setPointer st.slots i (some a)) i none) with
  | false =>
    refine ⟨sweepGo st.reclaim
        ⟨st.heap.filter (fun e => decide (e.1 ≠ a)), nx, st.nextAddr,
          setPointer (setPointer st.slots i (some a)) i none, [],
          a :: st.freed, st.threadSlot⟩, ?_, ?_, ?_⟩
    · simp [popE, getHazardSlot, hts, hhd, hlk, hout, sweep, Bind.bind, Except.bind]
    · intro q
      obtain ⟨hs, hf, hr⟩ := sweepGo_spec st.reclaim
        (⟨st.heap.filter (fun e => decide (e.1 ≠ a)), nx, st.nextAddr,
          setPointer (setPointer st.slots i (some a)) i none, [],
          a :: st.freed, st.threadSlot⟩ : LFSState α)
      rw [hf q]
      simp only [List.mem_cons]
      constructor
      · rintro (⟨hq | hq⟩ | ⟨hq, ho⟩)
        · subst hq; exact Or.inr ⟨Or.inl rfl, hout⟩
        · exact Or.inl hq
        · exact Or.inr ⟨Or.inr hq, ho⟩
      · rintro (hq | ⟨hq | hq, ho⟩)
        · exact Or.inl (Or.inr hq)
        · subst hq; exact Or.inl (Or.inl rfl)
        · exact Or.inr ⟨hq, ho⟩
    · intro q
      obtain ⟨hs, hf, hr⟩ := sweepGo_spec st.reclaim
        (⟨st.heap.filter (fun e => decide (e.1 ≠ a)), nx, st.nextAddr,
          setPointer (setPointer st.slots i (some a)) i none, [],
          a :: st.freed, st.threadSlot⟩ : LFSState α)
      rw [hr q]
      constructor
      · rintro (hq | ⟨hq, ho⟩)
        · cases hq
        · exact ⟨Or.inr hq, ho⟩
      · rintro ⟨hq | hq, ho⟩
        · subst hq; rw [hout] at ho; cases ho
        · exact Or.inr ⟨hq, ho⟩
  | true =>
    refine ⟨sweepGo (a :: st.reclaim)
        ⟨st.heap, nx, st.nextAddr,
          setPointer (setPointer st.slots i (some a)) i none, [],
          st.freed, st.threadSlot⟩, ?_, ?_, ?_⟩
    · simp [popE, getHazardSlot, hts, hhd, hlk, hout, sweep, Bind.bind, Except.bind]
    · intro q
      obtain ⟨hs, hf, hr⟩ := sweepGo_spec (a :: st.reclaim)
        (⟨st.heap, nx, st.nextAddr,
          setPointer (setPointer st.slots i (some a)) i none, [],
          st.freed, st.threadSlot⟩ : LFSState α)
      rw [hf q]
      simp only [List.mem_cons]
    · intro q
      obtain ⟨hs, hf, hr⟩ := sweepGo_spec (a :: st.reclaim)
        (⟨st.heap, nx, st.nextAddr,
          setPointer (setPointer st.slots i (some a)) i none, [],
          st.freed, st.threadSlot⟩ : LFSState α)
      rw [hr q]
      simp only [List.mem_cons, List.not_mem_nil, false_or]

/-- A concrete state for exercising `pop`'s disposal logic: one node at
address 9 on the stack, the running thread registered at slot 0, another
thread's slot protecting address 5, and addresses 5 and 6 pending deferred
reclamation. -/
def reclaimDemoState : LFSState Nat :=
  ⟨[(9, 42, none)], some 9, 10, [⟨some 0, none⟩, ⟨some 1, some 5⟩], [5, 6], [], some 0⟩

/-- Witness for C6 on `reclaimDemoState`: popping returns 42; afterwards an
address is freed exactly when it is unprotected (9 and 6 here) and address 5,
still protected by the other thread's slot, stays deferred. -/
theorem pop_frees_only_unprotected_witness :
    ∃ st', popE reclaimDemoState = .ok (some 42, st') ∧
      (∀ q, q ∈ st'.freed ↔ q ∈ reclaimDemoState.freed ∨
        ((q = 9 ∨ q ∈ reclaimDemoState.reclaim) ∧ outstanding_hazard_pointers_for q
          (setPointer (setPointer reclaimDemoState.slots 0 (some 9)) 0 none) = false)) ∧
      (∀ q, q ∈ st'.reclaim ↔ (q = 9 ∨ q ∈ reclaimDemoState.reclaim) ∧
        outstanding_hazard_pointers_for q
          (setPointer (setPointer reclaimDemoState.slots 0 (some 9)) 0 none) = true) :=
  pop_frees_only_unprotected reclaimDemoState 0 9 42 none rfl rfl rfl

/-! ## Zero-worker execution of the sorter (C4)

`do_sortSeq` runs `sorter::do_sort` under the schedule in which no worker
thread ever pops a chunk (`max_thread_count` 0, or the workers never get
scheduled): every chunk pushed onto the shared stack is popped and sorted by
the pushing thread itself, inside its join-by-helping wait loop (lines 76–78
of the unnamed sorter file).  The chunk stack and the promise/future pairs
are explicit: `SeqState.stack` is the shared `chunks` stack (top first, a
chunk being its id and its unsorted data), `SeqState.fulfilled` records each
fulfilled promise (chunk id to sorted data), and `nextId` generates fresh
chunk ids.  The recursion is fuel-indexed so that the model is total by
construction; the claim theorem shows fuel `2·length + 1` always suffices. -/

/-- Chunk-stack state for the zero-worker execution. -/
structure SeqState (α : Type) where
  stack : List (Nat × List α)
  fulfilled : List (Nat × List α)
  nextId : Nat

mutual

/-- One call of `do_sort` under the zero-worker schedule: partition around
the first element, push the lower group as a chunk, recurse on the higher
group locally, then run the join-by-helping wait loop until the chunk's
future is ready, and splice the results together. -/
def do_sortSeq (lt : α → α → Bool) : Nat → List α → SeqState α →
    Option (List α × SeqState α)
  | 0, _, _ => none
  | fuel + 1, data, st =>
    match data with
    | [] => some ([], st)
    | x :: xs =>
      let pr := bidirPartition (fun v => lt v x) xs
      let cid := st.nextId
      match do_sortSeq lt fuel (pr.1.drop pr.2)
          ⟨(cid, pr.1.take pr.2) :: st.stack, st.fulfilled, cid + 1⟩ with
      | none => none
      | some (sortedHigher, st2) =>
        match waitSort lt fuel cid st2 with
        | none => none
        | some (sortedLower, st3) => some (sortedLower ++ x :: sortedHigher, st3)

/-- The join-by-helping wait loop (`while (wait_for(0s) != ready)
try_sort_chunk();`): while chunk `cid`'s promise is unfulfilled, pop the top
chunk of the shared stack, sort it with `do_sort` and fulfill its promise;
once fulfilled, hand the sorted data back (`future.get`). -/
def waitSort (lt : α → α → Bool) : Nat → Nat → SeqState α →
    Option (List α × SeqState α)
  | 0, _, _ => none
  | fuel + 1, cid, st =>
    match List.lookup cid st.fulfilled with
    | some res => some (res, st)
    | none =>
      match st.stack with
      | [] => none
      | (cid2, d) :: rest =>
        match do_sortSeq lt fuel d ⟨rest, st.fulfilled, st.nextId⟩ with
        | none => none
        | some (sorted, st2) =>
          waitSort lt fuel cid ⟨st2.stack, (cid2, sorted) :: st2.fulfilled, st2.nextId⟩

end

theorem lookup_eq_none_of_keys_ne {β : Type} :
    ∀ (l : List (Nat × β)) (k : Nat), (∀ p ∈ l, p.1 ≠ k) → List.lookup k l = none := by
  intro l k
  induction l with
  | nil => intro _; rfl
  | cons a t ih =>
    intro hne
    have ha : a.1 ≠ k := hne a (List.mem_cons_self a t)
    have hbeq : (k == a.1) = false := by
      simp only [beq_eq_false_iff_ne, ne_eq]
      exact fun hc => ha hc.symm
    obtain ⟨a1, a2⟩ := a
    simp only [List.lookup, hbeq]
    exact ih (fun p hp => hne p (List.mem_cons_of_mem _ hp))

theorem do_sortSeq_cons_unfold (lt : α → α → Bool) (fuel : Nat) (x : α) (xs : List α)
    (st : SeqState α) {sh sl : List α} {st2 st3 : SeqState α}
    (h2 : do_sortSeq lt fuel
        ((bidirPartition (fun v => lt v x) xs).1.drop (bidirPartition (fun v => lt v x) xs).2)
        ⟨(st.nextId, (bidirPartition (fun v => lt v x) xs).1.take
            (bidirPartition (fun v => lt v x) xs).2) :: st.stack,
          st.fulfilled, st.nextId + 1⟩ = some (sh, st2))
    (h3 : waitSort lt fuel st.nextId st2 = some (sl, st3)) :
    do_sortSeq lt (fuel + 1) (x :: xs) st = some (sl ++ x :: sh, st3) := by
  conv_lhs => rw [do_sortSeq]
  simp only [h2, h3]

theorem waitSort_hit (lt : α → α → Bool) (fuel cid : Nat) (st : SeqState α) {res : List α}
    (h : List.lookup cid st.fulfilled = some res) :
    waitSort lt (fuel + 1) cid st = some (res, st) := by
  conv_lhs => rw [waitSort]
  simp only [h]

theorem waitSort_miss (lt : α → α → Bool) (fuel cid : Nat) (st : SeqState α)
    (cid2 : Nat) (d : List α) (rest : List (Nat × List α))
    (hlk : List.lookup cid st.fulfilled = none) (hstk : st.stack = (cid2, d) :: rest)
    {sorted : List α} {st2 : SeqState α}
    (hrun : do_sortSeq lt fuel d ⟨rest, st.fulfilled, st.nextId⟩ = some (sorted, st2)) :
    waitSort lt (fuel + 1) cid st =
      waitSort lt fuel cid ⟨st2.stack, (cid2, sorted) :: st2.fulfilled, st2.nextId⟩ := by
  conv_lhs => rw [waitSort]
  simp only [hlk, hstk, hrun]

/-- Zero-worker completeness: with fuel `2·n + 1` for any `n` bounding the
data length, starting from any chunk-stack state whose ids are below the
fresh-id counter, `do_sortSeq` returns `do_sort`'s result, leaves the shared
stack exactly as it found it (every chunk it pushes it also pops and sorts
itself), and only adds fulfilled promises with fresh ids. -/
theorem do_sortSeq_complete (lt : α → α → Bool) :
    ∀ n : Nat, ∀ data : List α, data.length ≤ n → ∀ fuel : Nat, 2 * n + 1 ≤ fuel →
      ∀ st : SeqState α,
        (∀ p ∈ st.stack, p.1 < st.nextId) → (∀ p ∈ st.fulfilled, p.1 < st.nextId) →
        ∃ st', do_sortSeq lt fuel data st = some (do_sort lt data, st') ∧
          st'.stack = st.stack ∧ st.nextId ≤ st'.nextId ∧
          (∀ p ∈ st'.stack, p.1 < st'.nextId) ∧
          (∀ p ∈ st'.fulfilled, p.1 < st'.nextId) ∧
          (∀ p ∈ st'.fulfilled, p ∈ st.fulfilled ∨ st.nextId ≤ p.1) := by
  intro n
  induction n with
  | zero =>
    intro data hdata fuel hfuel st hstk hful
    obtain ⟨f, rfl⟩ : ∃ f, fuel = f + 1 := ⟨fuel - 1, by omega⟩
    have hd : data = [] := List.eq_nil_of_length_eq_zero (Nat.le_zero.mp hdata)
    subst hd
    refine ⟨st, ?_, rfl, Nat.le_refl _, hstk, hful, fun p hp => Or.inl hp⟩
    simp [do_sortSeq, do_sort_nil]
  | succ m ih =>
    intro data hdata fuel hfuel st hstk hful
    cases data with
    | nil =>
      obtain ⟨f, rfl⟩ : ∃ f, fuel = f + 1 := ⟨fuel - 1, by omega⟩
      refine ⟨st, ?_, rfl, Nat.le_refl _, hstk, hful, fun p hp => Or.inl hp⟩
      simp [do_sortSeq, do_sort_nil]
    | cons x xs =>
      obtain ⟨h, rfl⟩ : ∃ h, fuel = h + 1 + 1 + 1 := ⟨fuel - 3, by omega⟩
      have hxs : xs.length ≤ m := by simpa using hdata
      have hplen := bidirPartition_length (fun v => lt v x) xs
      have hlowlen : ((bidirPartition (fun v => lt v x) xs).1.take
          (bidirPartition (fun v => lt v x) xs).2).length ≤ m := by
        simp only [List.length_take]; omega
      have hhighlen : ((bidirPartition (fun v => lt v x) xs).1.drop
          (bidirPartition (fun v => lt v x) xs).2).length ≤ m := by
        simp only [List.length_drop]; omega
      obtain ⟨st2, heq2, hsk2, hni2, hstk2, hful2, hsup2⟩ :=
        ih ((bidirPartition (fun v => lt v x) xs).1.drop
            (bidirPartition (fun v => lt v x) xs).2) hhighlen (h + 1 + 1) (by omega)
          ⟨(st.nextId, (bidirPartition (fun v => lt v x) xs).1.take
              (bidirPartition (fun v => lt v x) xs).2) :: st.stack,
            st.fulfilled, st.nextId + 1⟩
          (by
            intro p hp
            rcases List.mem_cons.mp hp with hp | hp
            · subst hp; exact Nat.lt_succ_self _
            · exact Nat.lt_succ_of_lt (hstk p hp))
          (fun p hp => Nat.lt_succ_of_lt (hful p hp))
      have hsk2' : st2.stack = (st.nextId, (bidirPartition (fun v => lt v x) xs).1.take
          (bidirPartition (fun v => lt v x) xs).2) :: st.stack := hsk2
      have hni2' : st.nextId + 1 ≤ st2.nextId := hni2
      have hsup2' : ∀ p ∈ st2.fulfilled, p ∈ st.fulfilled ∨ st.nextId + 1 ≤ p.1 := hsup2
      have hlkp : List.lookup st.nextId st2.fulfilled = none := by
        apply lookup_eq_none_of_keys_ne
        intro p hp
        rcases hsup2' p hp with hin | hge
        · exact Nat.ne_of_lt (hful p hin)
        · omega
      obtain ⟨st3, heq3, hsk3, hni3, hstk3, hful3, hsup3⟩ :=
        ih ((bidirPartition (fun v => lt v x) xs).1.take
            (bidirPartition (fun v => lt v x) xs).2) hlowlen (h + 1) (by omega)
          ⟨st.stack, st2.fulfilled, st2.nextId⟩
          (by
            intro p hp
            have := hstk p hp
            have := hni2'
            simp only []
            omega)
          (fun p hp => hful2 p hp)
      have hsk3' : st3.stack = st.stack := hsk3
      have hni3' : st2.nextId ≤ st3.nextId := hni3
      have hsup3' : ∀ p ∈ st3.fulfilled, p ∈ st2.fulfilled ∨ st2.nextId ≤ p.1 := hsup3
      refine ⟨⟨st3.stack,
          (st.nextId, do_sort lt ((bidirPartition (fun v => lt v x) xs).1.take
            (bidirPartition (fun v => lt v x) xs).2)) :: st3.fulfilled, st3.nextId⟩,
        ?_, ?_, ?_, ?_, ?_, ?_⟩
      · rw [do_sort_cons]
        exact do_sortSeq_cons_unfold lt (h + 1 + 1) x xs st heq2
          ((waitSort_miss lt (h + 1) st.nextId st2 st.nextId
              ((bidirPartition (fun v => lt v x) xs).1.take
                (bidirPartition (fun v => lt v x) xs).2)
              st.stack hlkp hsk2' heq3).trans
            (waitSort_hit lt h st.nextId _ (by simp [List.lookup])))
      · exact hsk3'
      · simp only []
        omega
      · intro p hp
        rw [hsk3'] at hp
        have := hstk p hp
        simp only []
        omega
      · intro p hp
        rcases List.mem_cons.mp hp with hp | hp
        · subst hp
          simp only []
          omega
        · exact Nat.lt_of_lt_of_le (hful3 p hp) (Nat.le_refl _)
      · intro p hp
        rcases List.mem_cons.mp hp with hp | hp
        · subst hp
          exact Or.inr (Nat.le_refl _)
        · rcases hsup3' p hp with hin | hge
          · rcases hsup2' p hin with hin2 | hge2
            · exact Or.inl hin2
            · exact Or.inr (by omega)
          · exact Or.inr (by omega)

/-- C4: for every finite input sequence the sort terminates and returns even
when zero additional worker threads run: executing `do_sort` under the
schedule in which the pushing thread itself pops and sorts every pending
chunk in its join-by-helping wait loop succeeds — fuel `2·length + 1`
already suffices, the shared chunk stack is empty again at the end, and the
result is the value of the total function `do_sort`. -/
theorem sort_zero_workers_total (lt : α → α → Bool) (data : List α) :
    ∃ st', do_sortSeq lt (2 * data.length + 1) data ⟨[], [], 0⟩ =
        some (do_sort lt data, st') ∧ st'.stack = [] := by
  obtain ⟨st', heq, hstk, _, _, _, _⟩ :=
    do_sortSeq_complete lt data.length data (Nat.le_refl _) (2 * data.length + 1)
      (Nat.le_refl _) ⟨[], [], 0⟩ (by intro p hp; cases hp) (by intro p hp; cases hp)
  exact ⟨st', heq, hstk⟩
